import Mathlib

/-
Verification of the skeletal animation core of lucyframework
(src/lucyframework/skeletal.py) against its natural-language specification.

The Python module is shallowly embedded.  Angles, lengths and times are
Python floats in the source; they are modelled as elements of an arbitrary
linear ordered field `K` (instantiated at `ℚ` for executable witnesses and at
`ℝ` where the cosine easing curve is needed).  Python `%` on floats is
`pymod`, `math.fmod` is `fmod`.  Mutable objects become explicit state; an
operation that can raise a Python exception returns `Option` (with `none`
modelling the raised exception) or carries an explicit success flag when the
partially mutated state matters.
-/

namespace Lucy

set_option linter.unusedSectionVars false
set_option linter.unusedVariables false

variable {K : Type} [LinearOrderedField K] [FloorRing K]

/-- Root world transform of the skeletal system (`CoreTransform` in the
source): position, angle and scale. -/
structure CoreTransform (K : Type) where
  px : K
  py : K
  angle : K
  scale : K
  deriving DecidableEq

/-- A bone of the transform hierarchy (`Bone` in the source).  The source
stores `parent: CoreTransform | Bone`; the acyclicity invariant of the spec
makes the ancestor chain of any bone a finite chain, embedded here as an
inductive: a bone is either anchored directly on the `CoreTransform` or
attached to a parent bone. -/
inductive Bone (K : Type) where
  | anchored (name : String) (core : CoreTransform K)
      (local_length local_angle local_angle_saved : K)
  | attached (name : String) (parent : Bone K)
      (local_length local_angle local_angle_saved : K)
  deriving DecidableEq

/-- The `Bone.angle` property of the source: `self.local_angle + self.parent.angle`,
where the parent's angle is the stored core angle when the parent is the
`CoreTransform`. -/
def Bone.angle : Bone K → K
  | .anchored _ c _ la _ => la + c.angle
  | .attached _ p _ la _ => la + Bone.angle p

/-- Spec-side quantity: the sum of the local angles along the ancestor chain
of a bone (the bone itself included). -/
def Bone.localSum : Bone K → K
  | .anchored _ _ _ la _ => la
  | .attached _ p _ la _ => la + Bone.localSum p

/-- Spec-side quantity: the angle of the root anchor a bone's chain terminates
at. -/
def Bone.rootAngle : Bone K → K
  | .anchored _ c _ _ _ => c.angle
  | .attached _ p _ _ _ => Bone.rootAngle p

/-- Number of bone-to-bone links above a bone (0 when the parent is the
root anchor). -/
def Bone.depth : Bone K → ℕ
  | .anchored _ _ _ _ _ => 0
  | .attached _ p _ _ _ => Bone.depth p + 1

/-- Add `d` to the local angle of the `k`-th ancestor of a bone (`k = 0` is
the bone itself).  When `k` exceeds the chain depth the bone is unchanged. -/
def Bone.bumpAncestor : Bone K → ℕ → K → Bone K
  | .anchored n c ll la ls, 0, d => .anchored n c ll (la + d) ls
  | .attached n p ll la ls, 0, d => .attached n p ll (la + d) ls
  | .anchored n c ll la ls, _ + 1, _ => .anchored n c ll la ls
  | .attached n p ll la ls, k + 1, d => .attached n (Bone.bumpAncestor p k d) ll la ls

/-- Python `%` on floats for a positive divisor: `x - y * floor (x / y)`. -/
def pymod (x y : K) : K := x - y * (⌊x / y⌋ : ℤ)

/-- Rounding toward zero, used by C-style `math.fmod`. -/
def trunc0 (x : K) : ℤ := if 0 ≤ x then ⌊x⌋ else ⌈x⌉

/-- Python `math.fmod`: `x - y * trunc (x / y)` (result has the sign of `x`). -/
def fmod (x y : K) : K := x - y * ((trunc0 (x / y) : ℤ) : K)

/-- The `lerp_angle` function of the source: shortest-path circular interpolation,
`diff = (b - a + 180) % 360 - 180` then `a + diff * t`. -/
def lerp_angle (a b t : K) : K := a + (pymod (b - a + 180) 360 - 180) * t

/-- The single easing curve of the source, `EASE_IN_OUT_SINE`. -/
noncomputable def EASE_IN_OUT_SINE : ℝ → ℝ := fun x => -(Real.cos (x * Real.pi) - 1) / 2

lemma pymod_nonneg (x y : K) (hy : 0 < y) : 0 ≤ pymod x y := by
  unfold pymod
  rw [sub_nonneg]
  calc y * (⌊x / y⌋ : K) ≤ y * (x / y) := by
        exact mul_le_mul_of_nonneg_left (Int.floor_le _) hy.le
    _ = x := by field_simp

lemma pymod_lt (x y : K) (hy : 0 < y) : pymod x y < y := by
  unfold pymod
  have h := Int.lt_floor_add_one (x / y)
  have h2 : x < y * ((⌊x / y⌋ : K) + 1) := by
    have := mul_lt_mul_of_pos_left h hy
    calc x = y * (x / y) := by field_simp
      _ < y * ((⌊x / y⌋ : K) + 1) := this
  nlinarith

lemma Bone.angle_eq_localSum (b : Bone K) : b.angle = b.localSum + b.rootAngle := by
  induction b with
  | anchored n c ll la ls => simp [Bone.angle, Bone.localSum, Bone.rootAngle]
  | attached n p ll la ls ih =>
      simp [Bone.angle, Bone.localSum, Bone.rootAngle, ih]
      ring

lemma Bone.bumpAncestor_angle (b : Bone K) (k : ℕ) (d : K) (h : k ≤ b.depth) :
    (b.bumpAncestor k d).angle = b.angle + d := by
  induction b generalizing k with
  | anchored n c ll la ls =>
      have hk : k = 0 := Nat.le_zero.mp h
      subst hk
      simp [Bone.bumpAncestor, Bone.angle]
      ring
  | attached n p ll la ls ih =>
      cases k with
      | zero =>
          simp [Bone.bumpAncestor, Bone.angle]
          ring
      | succ m =>
          have hm : m ≤ p.depth := Nat.succ_le_succ_iff.mp h
          simp [Bone.bumpAncestor, Bone.angle, ih m hm]
          ring

/-- Claim C1: for every acyclic bone tree, the world angle of a bone is the
sum of the local angles along its ancestor chain plus the root anchor's
angle, and adding `d` to the local angle of any ancestor (the `k`-th one,
for any `k` up to the chain depth) adds exactly `d` to the bone's world
angle. -/
theorem claim_C1_world_angle (b : Bone K) (k : ℕ) (d : K) (h : k ≤ b.depth) :
    b.angle = b.localSum + b.rootAngle ∧
    (b.bumpAncestor k d).angle = b.angle + d :=
  ⟨Bone.angle_eq_localSum b, Bone.bumpAncestor_angle b k d h⟩

/-- Concrete instantiation of claim C1's theorem: a two-bone chain over `ℚ`,
bumping the parent (ancestor index 1) by 7 degrees. -/
def c1Bone : Bone ℚ :=
  .attached "arm" (.anchored "torso" ⟨0, 0, 30, 1⟩ 5 10 0) 4 20 0

theorem claim_C1_world_angle_witness :
    (1 ≤ c1Bone.depth) ∧
    c1Bone.angle = c1Bone.localSum + c1Bone.rootAngle ∧
    (c1Bone.bumpAncestor 1 7).angle = c1Bone.angle + 7 :=
  ⟨by decide, (claim_C1_world_angle c1Bone 1 7 (by decide)).1,
    (claim_C1_world_angle c1Bone 1 7 (by decide)).2⟩

/-- A keyframe of a bone track (`BoneAnimationKeyframe` in the source): a
time stamp with optional angle and optional length. -/
structure Keyframe (K : Type) where
  time : K
  angle : Option K
  length : Option K
  deriving DecidableEq

/-- A bone's keyframe track inside a clip (`BoneAnimation` in the source).
The source stores a reference to the mutable `Bone` object; since the bone
objects live in the skeleton's name-keyed dictionary, the reference is
embedded as the bone's (unique) name. -/
structure BoneAnimation (K : Type) where
  bone : String
  keyframes : List (Keyframe K)
  deriving DecidableEq

/-- The mutable per-bone fields of a skeleton bone record, as read and
written by the playback state machine (`play`, `update`, `_flip`).  The
hierarchy topology is irrelevant to those methods, so it is not duplicated
here. -/
structure BoneRec (K : Type) where
  local_length : K
  local_angle : K
  local_angle_saved : K
  deriving DecidableEq

/-- The full mutable state of a `SkeletalAnimation` instance: the core
transform's angle and scale, the name-keyed bone records, the named clips,
and every playback field assigned in `__init__` or in `play`.  The
`old_start_time`, `transition_t`, `old_time_scale`, `transition_reverse` and
`old_duration` attributes are created by `play` in the source; here they get
inert defaults at construction. -/
structure AnimState (K : Type) where
  core_angle : K
  core_scale : K
  bones : List (String × BoneRec K)
  animations : List (String × List (BoneAnimation K))
  is_started : Bool
  current_animation : String
  duration : K
  transition_duration : K
  start_time : K
  transition_start_time : K
  is_looping : Bool
  reverse_on_each_loop : Bool
  reverse : Bool
  previous_animation : String
  transition : Bool
  time_scale : K
  flipped : Bool
  old_start_time : K
  transition_t : K
  old_time_scale : K
  transition_reverse : Bool
  old_duration : K
  deriving DecidableEq

/-- Python dictionary lookup on a name-keyed association list. -/
def alookup {α : Type} : List (String × α) → String → Option α
  | [], _ => none
  | (n, v) :: rest, key => if n = key then some v else alookup rest key

/-- Write a bone's `local_angle` through its name (in the source the write
goes through the shared `Bone` object held both by the bones dictionary and
by the `BoneAnimation`; names are the dictionary keys, hence unique). -/
def setBoneAngle (bones : List (String × BoneRec K)) (name : String) (a : K) :
    List (String × BoneRec K) :=
  bones.map fun p => if p.1 = name then (p.1, { p.2 with local_angle := a }) else p

/-- The scanning loop of `_get_keyframes`: the first adjacent pair `k0, k1`
with `k0.time <= t <= k1.time`, in track order. -/
def bracketScan : List (Keyframe K) → K → Option (Keyframe K × Keyframe K)
  | k0 :: k1 :: rest, t =>
    if k0.time ≤ t ∧ t ≤ k1.time then some (k0, k1) else bracketScan (k1 :: rest) t
  | _, _ => none

/-- Python `l[-2], l[-1]`: the last two elements; `none` models the
`IndexError` raised when the list has fewer than two elements. -/
def lastTwo {α : Type} : List α → Option (α × α)
  | [] => none
  | [_] => none
  | [a, b] => some (a, b)
  | _ :: rest => lastTwo rest

/-- Embeds `SkeletalAnimation._get_keyframes`: scan for a bracketing adjacent pair,
falling back to the last two keyframes; `none` models the `IndexError` of the
fallback on a track with fewer than two keyframes. -/
def get_keyframes (kfs : List (Keyframe K)) (t : K) : Option (Keyframe K × Keyframe K) :=
  match bracketScan kfs t with
  | some p => some p
  | none => lastTwo kfs

/-- Embeds `SkeletalAnimation.play`.  Here `now` stands for the `perf_counter()` sample
taken during the call. -/
def play (now : K) (animation : String) (duration : K)
    (loop force transition reverse reverse_on_each_loop : Bool)
    (s : AnimState K) : AnimState K :=
  if !s.is_started || force || transition then
    let s1 : AnimState K :=
      { s with
        is_started := true
        transition := transition
        old_start_time := s.start_time
        transition_t := now - s.start_time
        old_time_scale := s.time_scale
        transition_reverse := s.reverse
        old_duration := s.duration }
    let s2 : AnimState K :=
      if transition then { s1 with transition_start_time := now }
      else { s1 with start_time := now }
    let s3 : AnimState K :=
      { s2 with
        is_looping := loop
        previous_animation := s2.current_animation
        current_animation := animation
        duration := duration
        reverse := reverse
        reverse_on_each_loop := reverse_on_each_loop }
    if transition then
      { s3 with
        bones := s3.bones.map fun p => (p.1, { p.2 with local_angle_saved := p.2.local_angle }) }
    else s3
  else s

/-- Embeds `SkeletalAnimation.stop`. -/
def stop (s : AnimState K) : AnimState K := { s with is_started := false }

/-- The sampling time the transition branch of `update` uses on the incoming
clip (`transition1_t` in the source): `now` minus a `future_start_time`
derived by folding `transition_duration` against `duration / time_scale`,
scaled by `time_scale`. -/
def transition1T (s : AnimState K) (now : K) : K :=
  let future_start_time := now - fmod s.transition_duration (s.duration / s.time_scale)
  (now - future_start_time) * s.time_scale

/-- The bone-writing loop of `update` outside transitions: bracket the track
at `t`, ease the in-bracket alpha, and write the interpolated angle when both
bracketing keyframes carry one (`none` models the `IndexError` of the bracket
fallback on a short track). -/
def updateBonesSteady (ease : K → K) (t : K) :
    List (BoneAnimation K) → List (String × BoneRec K) → Option (List (String × BoneRec K))
  | [], bones => some bones
  | ba :: rest, bones =>
    match get_keyframes ba.keyframes t with
    | none => none
    | some (k0, k1) =>
      let alpha := ease ((t - k0.time) / (k1.time - k0.time))
      let bones1 :=
        match k0.angle, k1.angle with
        | some a0, some a1 => setBoneAngle bones ba.bone (lerp_angle a0 a1 alpha)
        | _, _ => bones
      updateBonesSteady ease t rest bones1

/-- The bone-writing loop of `update` during a transition: the written value
blends the bone's saved angle toward the incoming clip's interpolated angle.
`none` models the exceptions of the source loop (bracket `IndexError`, or the
`TypeError` of `lerp_angle` on a keyframe without an angle).  The source also
scans the previous clip's track list for a matching bone name, but the result
of that scan feeds only commented-out code, so it is not reproduced. -/
def updateBonesTransition (ease : K → K) (tt1 now start_time td : K) :
    List (BoneAnimation K) → List (String × BoneRec K) → Option (List (String × BoneRec K))
  | [], bones => some bones
  | ba :: rest, bones =>
    match get_keyframes ba.keyframes tt1 with
    | none => none
    | some (k0, k1) =>
      match alookup bones ba.bone with
      | none => none
      | some b =>
        match k0.angle, k1.angle with
        | some a0, some a1 =>
          let alpha1 := ease ((tt1 - k0.time) / (k1.time - k0.time))
          let angle1 := lerp_angle a0 a1 alpha1
          let tblend := ease ((now - start_time) / (td * 1))
          updateBonesTransition ease tt1 now start_time td rest
            (setBoneAngle bones ba.bone (lerp_angle b.local_angle_saved angle1 tblend))
        | _, _ => none

/-- Embeds `SkeletalAnimation.update`.  Here `now` stands for the `perf_counter()` sample
of the call (the source re-samples the clock on the boundary paths; the
re-sample is identified with `now`).  The self-recursive calls of the source
are fuelled; `fuel = 0` returns `none`, and `none` also models a raised
`KeyError` (missing clip) or an exception from the bone loops. -/
def update (ease : K → K) : ℕ → K → AnimState K → Option (AnimState K)
  | 0, _, _ => none
  | fuel + 1, now, s =>
    if s.is_started then
      let start_time := if s.transition then s.transition_start_time else s.start_time
      let t0 := if s.transition then now - start_time else (now - start_time) * s.time_scale
      match alookup s.animations s.current_animation with
      | none => none
      | some animation =>
        let duration := if s.transition then s.transition_duration else s.duration
        let t := if s.reverse then duration - t0 else t0
        if duration ≤ t0 then
          if s.transition then
            update ease fuel now
              { s with
                transition := false
                start_time := now - fmod s.transition_duration (s.duration / s.time_scale)
                reverse := false }
          else if s.is_looping then
            update ease fuel now
              { s with
                start_time := now
                reverse := if s.reverse_on_each_loop then !s.reverse else s.reverse }
          else some (stop s)
        else
          if s.transition then
            match alookup s.animations s.previous_animation with
            | none => none
            | some _ =>
              match updateBonesTransition ease (transition1T s now) now start_time
                  s.transition_duration animation s.bones with
              | none => none
              | some bones1 => some { s with bones := bones1 }
          else
            match updateBonesSteady ease t animation s.bones with
            | none => none
            | some bones1 => some { s with bones := bones1 }
    else some s

/-- Claim C4: `lerp_angle a b t` computes `d = ((b - a + 180) mod 360) - 180`,
which lies in `[-180, 180)`, and returns `a + d * t`; hence
`lerp_angle a b 0 = a`, `lerp_angle a b 1` is congruent to `b` modulo 360,
and the traversal step satisfies `|d| ≤ 180`. -/
theorem claim_C4_lerp_angle (a b t : K) :
    (-180 ≤ pymod (b - a + 180) 360 - 180 ∧ pymod (b - a + 180) 360 - 180 < 180) ∧
    lerp_angle a b t = a + (pymod (b - a + 180) 360 - 180) * t ∧
    lerp_angle a b 0 = a ∧
    (∃ k : ℤ, lerp_angle a b 1 = b + 360 * k) ∧
    |pymod (b - a + 180) 360 - 180| ≤ 180 := by
  have h0 : (0 : K) < 360 := by norm_num
  have hge := pymod_nonneg (b - a + 180) 360 h0
  have hlt := pymod_lt (b - a + 180) 360 h0
  refine ⟨⟨by linarith, by linarith⟩, rfl, by simp [lerp_angle], ?_, ?_⟩
  · refine ⟨-⌊(b - a + 180) / 360⌋, ?_⟩
    unfold lerp_angle pymod
    push_cast
    ring
  · rw [abs_le]
    constructor <;> linarith

/-- State right after `SkeletalAnimation.__init__` given the parsed bones and
clips: playback inert, default transition duration 0.2 s, time scale 1, not
flipped.  The `old_*` attributes do not exist yet in the source; they get
inert defaults. -/
def mkState (bones : List (String × BoneRec K))
    (anims : List (String × List (BoneAnimation K))) : AnimState K :=
  { core_angle := 0
    core_scale := 1
    bones := bones
    animations := anims
    is_started := false
    current_animation := ""
    duration := 0
    transition_duration := 1 / 5
    start_time := 0
    transition_start_time := 0
    is_looping := false
    reverse_on_each_loop := false
    reverse := false
    previous_animation := ""
    transition := false
    time_scale := 1
    flipped := false
    old_start_time := 0
    transition_t := 0
    old_time_scale := 1
    transition_reverse := false
    old_duration := 0 }

/-- Claim C8: when playback is already started with the requested clip and
settings, and neither `force` nor `transition` is passed, `play` leaves the
whole state (every playback field and every bone record) unchanged.  The
source guard `not is_started or force or transition` in fact short-circuits
on `is_started` alone; the equalities of the claim's "requested way" are
satisfiable extra hypotheses. -/
theorem claim_C8_play_noop (now : K) (animation : String) (duration : K)
    (loop reverse reverse_on_each_loop : Bool) (s : AnimState K)
    (h : s.is_started = true)
    (h1 : animation = s.current_animation) (h2 : duration = s.duration)
    (h3 : loop = s.is_looping) (h4 : reverse = s.reverse)
    (h5 : reverse_on_each_loop = s.reverse_on_each_loop) :
    play now animation duration loop false false reverse reverse_on_each_loop s = s := by
  simp [play, h]

def c8State : AnimState ℚ :=
  { mkState [("b", ⟨10, 0, 0⟩)] [("A", [⟨"b", [⟨0, some 0, none⟩, ⟨1, some 90, none⟩]⟩])] with
    is_started := true
    current_animation := "A"
    duration := 1 }

theorem claim_C8_play_noop_witness :
    c8State.is_started = true ∧
    play 3 "A" 1 false false false false false c8State = c8State :=
  ⟨rfl, claim_C8_play_noop 3 "A" 1 false false false c8State rfl rfl rfl rfl rfl rfl⟩

/-- State with no clips at all, used to exhibit `play` accepting an undefined
clip name. -/
def c7State : AnimState ℚ := mkState [("b", ⟨10, 0, 0⟩)] []

/-- Claim C7, counterexample: `play` with an undefined clip name does not
signal any failure — it returns normally, records `"missing"` as the current
clip, and the error only surfaces at the next `update`, which fails at the
clip lookup (`none` models the raised `KeyError`). -/
theorem claim_C7_counterexample :
    (play 0 "missing" 1 false false false false false c7State).current_animation
      = "missing" ∧
    update (fun x => x) 1 0 (play 0 "missing" 1 false false false false false c7State)
      = none := by
  constructor <;> rfl

/-- Claim C7 as amended: `play` performs no validation of the clip name; for
every state in which the guard lets `play` restart playback, an undefined
name is accepted and stored as the current clip, and every later `update`
fails at the clip lookup (modelled by `none`, the raised `KeyError`). -/
theorem claim_C7_unknown_clip (ease : K → K) (now : K) (anim : String) (duration : K)
    (loop force transition reverse reverse_on_each_loop : Bool) (s : AnimState K)
    (hmiss : alookup s.animations anim = none)
    (hguard : (!s.is_started || force || transition) = true) :
    (play now anim duration loop force transition reverse reverse_on_each_loop s).current_animation = anim ∧
    ∀ fuel (now2 : K),
      update ease fuel now2
        (play now anim duration loop force transition reverse reverse_on_each_loop s) = none := by
  have hpa : (play now anim duration loop force transition reverse reverse_on_each_loop s).current_animation = anim := by
    simp only [play, hguard, if_true]
    cases transition <;> simp
  have hframes : (play now anim duration loop force transition reverse reverse_on_each_loop s).animations = s.animations := by
    simp only [play, hguard, if_true]
    cases transition <;> simp
  have hstarted : (play now anim duration loop force transition reverse reverse_on_each_loop s).is_started = true := by
    simp only [play, hguard, if_true]
    cases transition <;> simp
  refine ⟨hpa, ?_⟩
  intro fuel now2
  cases fuel with
  | zero => rfl
  | succ n =>
      simp only [update, hstarted, if_true, hframes, hpa, hmiss]

theorem claim_C7_unknown_clip_witness :
    alookup c7State.animations "missing" = none ∧
    (play 0 "missing" 1 false false false false false c7State).current_animation
      = "missing" ∧
    update (fun x => (x : ℚ)) 2 7 (play 0 "missing" 1 false false false false false c7State)
      = none := by
  refine ⟨rfl, ?_, ?_⟩
  · exact (claim_C7_unknown_clip (fun x => x) 0 "missing" 1 false false false false false
      c7State rfl rfl).1
  · exact (claim_C7_unknown_clip (fun x => x) 0 "missing" 1 false false false false false
      c7State rfl rfl).2 2 7

/-- One call on the public playback control surface. -/
inductive SkelOp (K : Type) where
  | doPlay (now : K) (animation : String) (duration : K)
      (loop force transition reverse reverse_on_each_loop : Bool)
  | doUpdate (fuel : ℕ) (now : K)
  | doStop

/-- Apply one control call to the state.  A failing `update` (a raised
exception) writes no `local_length` either, so keeping the prior state on
`none` is faithful for the length-preservation question. -/
def applyOp (ease : K → K) : SkelOp K → AnimState K → AnimState K
  | .doPlay now a d loop force transition reverse ron, s =>
      play now a d loop force transition reverse ron s
  | .doUpdate fuel now, s => (update ease fuel now s).getD s
  | .doStop, s => stop s

/-- Run a sequence of control calls. -/
def runOps (ease : K → K) : List (SkelOp K) → AnimState K → AnimState K
  | [], s => s
  | op :: rest, s => runOps ease rest (applyOp ease op s)

/-- The name-keyed local lengths of the bone records. -/
def lengthsOf (bones : List (String × BoneRec K)) : List (String × K) :=
  bones.map fun p => (p.1, p.2.local_length)

lemma lengthsOf_setBoneAngle (bones : List (String × BoneRec K)) (n : String) (a : K) :
    lengthsOf (setBoneAngle bones n a) = lengthsOf bones := by
  induction bones with
  | nil => rfl
  | cons p rest ih =>
      simp only [setBoneAngle, lengthsOf, List.map_cons, List.map_map] at *
      by_cases h : p.1 = n <;> simp [h, ih]

lemma lengthsOf_updateBonesSteady (ease : K → K) (t : K)
    (anims : List (BoneAnimation K)) :
    ∀ (bones bones2 : List (String × BoneRec K)),
      updateBonesSteady ease t anims bones = some bones2 →
      lengthsOf bones2 = lengthsOf bones := by
  induction anims with
  | nil =>
      intro bones bones2 h
      simp only [updateBonesSteady] at h
      injection h with h
      rw [h]
  | cons ba rest ih =>
      intro bones bones2 h
      simp only [updateBonesSteady] at h
      split at h
      · exact absurd h (by simp)
      · split at h
        · rw [ih _ _ h, lengthsOf_setBoneAngle]
        · exact ih _ _ h

lemma lengthsOf_updateBonesTransition (ease : K → K) (tt1 now ts td : K)
    (anims : List (BoneAnimation K)) :
    ∀ (bones bones2 : List (String × BoneRec K)),
      updateBonesTransition ease tt1 now ts td anims bones = some bones2 →
      lengthsOf bones2 = lengthsOf bones := by
  induction anims with
  | nil =>
      intro bones bones2 h
      simp only [updateBonesTransition] at h
      simp_all
  | cons ba rest ih =>
      intro bones bones2 h
      simp only [updateBonesTransition] at h
      split at h
      · exact absurd h (by simp)
      · split at h
        · exact absurd h (by simp)
        · split at h
          · rw [ih _ _ h, lengthsOf_setBoneAngle]
          · exact absurd h (by simp)

lemma update_preserves (ease : K → K) (fuel : ℕ) :
    ∀ (now : K) (s s2 : AnimState K), update ease fuel now s = some s2 →
      lengthsOf s2.bones = lengthsOf s.bones ∧ s2.core_scale = s.core_scale := by
  induction fuel with
  | zero => intro now s s2 h; exact absurd h (by simp [update])
  | succ n ih =>
      intro now s s2 h
      cases hs : s.is_started with
      | false =>
          simp only [update, hs, Bool.false_eq_true, if_false] at h
          injection h with h
          subst h
          exact ⟨rfl, rfl⟩
      | true =>
          cases hts : s.transition with
          | true =>
              simp only [update, hs, hts, if_true] at h
              split at h
              · exact absurd h (by simp)
              · by_cases hd : s.transition_duration ≤ now - s.transition_start_time
                · rw [if_pos hd] at h
                  have hrec := ih now _ s2 h
                  exact ⟨hrec.1, hrec.2⟩
                · rw [if_neg hd] at h
                  split at h
                  · exact absurd h (by simp)
                  · split at h
                    · exact absurd h (by simp)
                    · rename_i bones1 hu
                      injection h with h
                      subst h
                      exact ⟨lengthsOf_updateBonesTransition _ _ _ _ _ _ _ _ hu, rfl⟩
          | false =>
              simp only [update, hs, hts, Bool.false_eq_true, if_true, if_false] at h
              split at h
              · exact absurd h (by simp)
              · by_cases hd : s.duration ≤ (now - s.start_time) * s.time_scale
                · rw [if_pos hd] at h
                  cases hl : s.is_looping with
                  | true =>
                      rw [hl] at h
                      simp only [if_true] at h
                      have hrec := ih now _ s2 h
                      exact ⟨hrec.1, hrec.2⟩
                  | false =>
                      rw [hl] at h
                      simp only [Bool.false_eq_true, if_false] at h
                      injection h with h
                      subst h
                      exact ⟨rfl, rfl⟩
                · rw [if_neg hd] at h
                  split at h
                  · exact absurd h (by simp)
                  · rename_i bones1 hu
                    injection h with h
                    subst h
                    exact ⟨lengthsOf_updateBonesSteady _ _ _ _ _ hu, rfl⟩

lemma play_preserves (now : K) (a : String) (d : K) (loop force transition reverse ron : Bool)
    (s : AnimState K) :
    lengthsOf (play now a d loop force transition reverse ron s).bones = lengthsOf s.bones ∧
    (play now a d loop force transition reverse ron s).core_scale = s.core_scale := by
  unfold play
  by_cases hg : (!s.is_started || force || transition) = true
  · rw [if_pos hg]
    cases transition <;>
      simp [lengthsOf, List.map_map]
  · rw [if_neg hg]
    exact ⟨rfl, rfl⟩

/-- Claim C9: no sequence of `play` / `update` / `stop` calls ever modifies
any bone's `local_length` (keyframe length overrides are parsed and stored
but never applied), and the core scale is likewise untouched, so world
lengths are unchanged as well. -/
theorem claim_C9_lengths_invariant (ease : K → K) (ops : List (SkelOp K)) (s : AnimState K) :
    lengthsOf (runOps ease ops s).bones = lengthsOf s.bones ∧
    (runOps ease ops s).core_scale = s.core_scale := by
  induction ops generalizing s with
  | nil => exact ⟨rfl, rfl⟩
  | cons op rest ih =>
      have hstep : lengthsOf (applyOp ease op s).bones = lengthsOf s.bones ∧
          (applyOp ease op s).core_scale = s.core_scale := by
        cases op with
        | doPlay now a d loop force transition reverse ron => exact play_preserves _ _ _ _ _ _ _ _ _
        | doUpdate fuel now =>
            rcases hu : update ease fuel now s with _ | s2
            · simp [applyOp, hu]
            · have := update_preserves ease fuel now s s2 hu
              simp [applyOp, hu, this.1, this.2]
        | doStop => exact ⟨rfl, rfl⟩
      have := ih (applyOp ease op s)
      exact ⟨by rw [runOps, this.1, hstep.1], by rw [runOps, this.2, hstep.2]⟩

lemma bracketScan_adj (t : K) :
    ∀ (kfs : List (Keyframe K)) (p : Keyframe K × Keyframe K),
      bracketScan kfs t = some p →
      ∃ i, kfs.get? i = some p.1 ∧ kfs.get? (i + 1) = some p.2 ∧
        p.1.time ≤ t ∧ t ≤ p.2.time
  | [], p, h => by simp [bracketScan] at h
  | [k], p, h => by simp [bracketScan] at h
  | k0 :: k1 :: rest, p, h => by
      by_cases hc : k0.time ≤ t ∧ t ≤ k1.time
      · rw [bracketScan, if_pos hc] at h
        injection h with h
        subst h
        exact ⟨0, rfl, rfl, hc.1, hc.2⟩
      · rw [bracketScan, if_neg hc] at h
        obtain ⟨i, h1, h2, h3, h4⟩ := bracketScan_adj t (k1 :: rest) p h
        exact ⟨i + 1, by simpa using h1, by simpa using h2, h3, h4⟩

lemma bracketScan_isSome_of_interior (t : K) :
    ∀ (rest : List (Keyframe K)) (k0 kl : Keyframe K),
      (k0 :: rest).getLast? = some kl → rest ≠ [] →
      k0.time ≤ t → t ≤ kl.time → (bracketScan (k0 :: rest) t).isSome = true
  | [], k0, kl, hlast, hne, h0, h1 => absurd rfl hne
  | k1 :: rest2, k0, kl, hlast, hne, h0, h1 => by
      rw [List.getLast?_cons_cons] at hlast
      by_cases hc : k0.time ≤ t ∧ t ≤ k1.time
      · simp [bracketScan, if_pos hc]
      · have hk1 : k1.time ≤ t := by
          rcases not_and_or.mp hc with hcc | hcc
          · exact absurd h0 hcc
          · exact le_of_not_le hcc
        cases rest2 with
        | nil =>
            have hkl : k1 = kl := by simpa using hlast
            subst hkl
            exact absurd ⟨h0, h1⟩ hc
        | cons k2 rest3 =>
            have hrec := bracketScan_isSome_of_interior t (k2 :: rest3) k1 kl hlast
              (by simp) hk1 h1
            simpa [bracketScan, if_neg hc] using hrec

lemma bracketScan_none_of_all_gt (t : K) :
    ∀ (kfs : List (Keyframe K)), (∀ k ∈ kfs, t < k.time) → bracketScan kfs t = none
  | [], _ => rfl
  | [k], _ => rfl
  | k0 :: k1 :: rest, hall => by
      have h0 : t < k0.time := hall k0 (by simp)
      have hc : ¬(k0.time ≤ t ∧ t ≤ k1.time) := fun hx => absurd hx.1 (not_le.mpr h0)
      rw [bracketScan, if_neg hc]
      exact bracketScan_none_of_all_gt t (k1 :: rest)
        (fun k hk => hall k (List.mem_cons_of_mem _ hk))

lemma bracketScan_none_of_all_lt (t : K) :
    ∀ (kfs : List (Keyframe K)), (∀ k ∈ kfs, k.time < t) → bracketScan kfs t = none
  | [], _ => rfl
  | [k], _ => rfl
  | k0 :: k1 :: rest, hall => by
      have h1 : k1.time < t := hall k1 (by simp)
      have hc : ¬(k0.time ≤ t ∧ t ≤ k1.time) := fun hx => absurd hx.2 (not_le.mpr h1)
      rw [bracketScan, if_neg hc]
      exact bracketScan_none_of_all_lt t (k1 :: rest)
        (fun k hk => hall k (List.mem_cons_of_mem _ hk))

lemma all_le_getLast :
    ∀ (kfs : List (Keyframe K)) (kl : Keyframe K),
      kfs.Pairwise (fun a b => a.time < b.time) → kfs.getLast? = some kl →
      ∀ k ∈ kfs, k.time ≤ kl.time
  | [], kl, _, h => by simp at h
  | [k0], kl, _, h => by
      have hkl : k0 = kl := by simpa using h
      subst hkl
      intro k hk
      have hkk : k = k0 := by simpa using hk
      subst hkk
      exact le_refl _
  | k0 :: k1 :: rest, kl, hsort, h => by
      rw [List.getLast?_cons_cons] at h
      intro k hk
      rcases List.mem_cons.mp hk with rfl | hk
      · have hklmem : kl ∈ k1 :: rest := by
          rcases List.mem_getLast?_eq_getLast h with ⟨hne, hekl⟩
          rw [hekl]
          exact List.getLast_mem hne
        exact ((List.pairwise_cons.mp hsort).1 kl hklmem).le
      · exact all_le_getLast (k1 :: rest) kl (List.pairwise_cons.mp hsort).2 h k hk

lemma lastTwo_eq {α : Type} :
    ∀ (l : List α), 2 ≤ l.length →
      ∃ a b, lastTwo l = some (a, b) ∧ l.get? (l.length - 2) = some a ∧
        l.get? (l.length - 1) = some b
  | [], h => by simp at h
  | [x], h => by simp at h
  | [a, b], _ => ⟨a, b, rfl, rfl, rfl⟩
  | a :: b :: c :: rest, _ => by
      obtain ⟨x, y, h1, h2, h3⟩ := lastTwo_eq (b :: c :: rest) (by simp)
      refine ⟨x, y, by simpa [lastTwo] using h1, ?_, ?_⟩
      · have hl : (a :: b :: c :: rest).length - 2 = ((b :: c :: rest).length - 2) + 1 := by
          simp [List.length_cons]
        rw [hl, List.get?_cons_succ]
        exact h2
      · have hl : (a :: b :: c :: rest).length - 1 = ((b :: c :: rest).length - 1) + 1 := by
          simp [List.length_cons]
        rw [hl, List.get?_cons_succ]
        exact h3

/-- Claim C3 as amended: for a track with at least two keyframes whose times
are strictly increasing, `_get_keyframes` never fails; for `t` between the
first and the last time it returns an adjacent pair `k0, k1` of the track
with `k0.time <= t <= k1.time` (found by the in-order scan), and for `t`
before the first or after the last time it returns the last two keyframes of
the track.  (Tracks with fewer than two keyframes make the fallback raise
`IndexError`, see the counterexample.) -/
theorem claim_C3_bracket (kfs : List (Keyframe K)) (t : K) (kf kl : Keyframe K)
    (hlen : 2 ≤ kfs.length)
    (hsort : kfs.Pairwise (fun a b => a.time < b.time))
    (hhead : kfs.head? = some kf) (hlast : kfs.getLast? = some kl) :
    (get_keyframes kfs t).isSome = true ∧
    (kf.time ≤ t → t ≤ kl.time →
      ∃ i k0 k1, get_keyframes kfs t = some (k0, k1) ∧ kfs.get? i = some k0 ∧
        kfs.get? (i + 1) = some k1 ∧ k0.time ≤ t ∧ t ≤ k1.time) ∧
    ((t < kf.time ∨ kl.time < t) →
      ∃ a b, get_keyframes kfs t = some (a, b) ∧
        kfs.get? (kfs.length - 2) = some a ∧ kfs.get? (kfs.length - 1) = some b) := by
  rcases kfs with _ | ⟨hd, rest⟩
  · simp at hhead
  have hhd : hd = kf := by simpa using hhead
  subst hhd
  have hne : rest ≠ [] := by
    intro hr
    subst hr
    simp at hlen
  refine ⟨?_, ?_, ?_⟩
  · rcases hbs : bracketScan (hd :: rest) t with _ | p
    · obtain ⟨a, b, h1, h2, h3⟩ := lastTwo_eq (hd :: rest) hlen
      simp [get_keyframes, hbs, h1]
    · simp [get_keyframes, hbs]
  · intro h0 h1
    have hsome := bracketScan_isSome_of_interior t rest hd kl hlast hne h0 h1
    rcases hbs : bracketScan (hd :: rest) t with _ | p
    · rw [hbs] at hsome
      simp at hsome
    · obtain ⟨i, hi1, hi2, hi3, hi4⟩ := bracketScan_adj t (hd :: rest) p hbs
      exact ⟨i, p.1, p.2, by simp [get_keyframes, hbs], hi1, hi2, hi3, hi4⟩
  · intro hout
    have hbs : bracketScan (hd :: rest) t = none := by
      rcases hout with hlt | hgt
      · refine bracketScan_none_of_all_gt t (hd :: rest) ?_
        intro k hk
        rcases List.mem_cons.mp hk with rfl | hk
        · exact hlt
        · exact hlt.trans ((List.pairwise_cons.mp hsort).1 k hk)
      · refine bracketScan_none_of_all_lt t (hd :: rest) ?_
        intro k hk
        exact lt_of_le_of_lt (all_le_getLast (hd :: rest) kl hsort hlast k hk) hgt
    obtain ⟨a, b, h1, h2, h3⟩ := lastTwo_eq (hd :: rest) hlen
    exact ⟨a, b, by simp [get_keyframes, hbs, h1], h2, h3⟩

/-- Claim C3, counterexample to the claim as stated: on a track with a single
keyframe, `_get_keyframes` does not return "the last two samples" — the
fallback `keyframes[-2]` raises `IndexError` (modelled by `none`), for a
query time after the last sample. -/
theorem claim_C3_counterexample :
    get_keyframes ([⟨0, some 0, none⟩] : List (Keyframe ℚ)) 5 = none := rfl

def c3Track : List (Keyframe ℚ) := [⟨0, some 0, none⟩, ⟨1, some 90, none⟩]

theorem claim_C3_bracket_witness :
    (2 ≤ c3Track.length) ∧
    c3Track.Pairwise (fun a b => a.time < b.time) ∧
    (get_keyframes c3Track 7).isSome = true ∧
    (∃ a b, get_keyframes c3Track 7 = some (a, b) ∧
      c3Track.get? (c3Track.length - 2) = some a ∧
      c3Track.get? (c3Track.length - 1) = some b) := by
  have hsort : c3Track.Pairwise (fun a b => a.time < b.time) := by
    simp [c3Track]
  refine ⟨by simp [c3Track], hsort, ?_, ?_⟩
  · exact (claim_C3_bracket c3Track 7 ⟨0, some 0, none⟩ ⟨1, some 90, none⟩
      (by simp [c3Track]) hsort rfl rfl).1
  · exact (claim_C3_bracket c3Track 7 ⟨0, some 0, none⟩ ⟨1, some 90, none⟩
      (by simp [c3Track]) hsort rfl rfl).2.2 (Or.inr (by norm_num))

/-- The bone mutation of `_flip`: `local_angle = 0 - local_angle`, then
`local_angle_saved = local_angle` (the new, negated value). -/
def flipBones (bones : List (String × BoneRec K)) : List (String × BoneRec K) :=
  bones.map fun p =>
    (p.1, { p.2 with local_angle := 0 - p.2.local_angle
                     local_angle_saved := 0 - p.2.local_angle })

/-- The keyframe loop of `_flip` over one track, stopping at the first
keyframe whose angle is absent (where `0 - keyframe.angle` raises
`TypeError`): returns the track as mutated so far and a success flag. -/
def negKFs : List (Keyframe K) → List (Keyframe K) × Bool
  | [] => ([], true)
  | k :: rest =>
    match k.angle with
    | none => (k :: rest, false)
    | some a =>
      let r := negKFs rest
      ({ k with angle := some (0 - a) } :: r.1, r.2)

/-- The keyframe loop of `_flip` over the tracks of one clip. -/
def negBAs : List (BoneAnimation K) → List (BoneAnimation K) × Bool
  | [] => ([], true)
  | ba :: rest =>
    let r := negKFs ba.keyframes
    if r.2 then
      let rr := negBAs rest
      ({ ba with keyframes := r.1 } :: rr.1, rr.2)
    else
      ({ ba with keyframes := r.1 } :: rest, false)

/-- The keyframe loop of `_flip` over all clips. -/
def negAnims :
    List (String × List (BoneAnimation K)) → List (String × List (BoneAnimation K)) × Bool
  | [] => ([], true)
  | (n, bas) :: rest =>
    let r := negBAs bas
    if r.2 then
      let rr := negAnims rest
      ((n, r.1) :: rr.1, rr.2)
    else
      ((n, r.1) :: rest, false)

/-- Embeds `SkeletalAnimation._flip`: mirrors the core angle about 180 degrees,
negates every bone's local angle (refreshing the saved slot), then negates
every keyframe angle of every clip.  The flag is `false` when a keyframe
without an angle made the loop raise; the state component is the object as
mutated up to that point (the core and all bones are mutated first). -/
def flipAttempt (s : AnimState K) : AnimState K × Bool :=
  let r := negAnims s.animations
  ({ s with core_angle := 180 - s.core_angle
            bones := flipBones s.bones
            animations := r.1 }, r.2)

/-- The `flipped` property setter: a no-op when the value does not change,
otherwise it stores the new value and runs `_flip`. -/
def setFlipped (v : Bool) (s : AnimState K) : AnimState K × Bool :=
  if s.flipped = v then (s, true)
  else flipAttempt { s with flipped := v }

/-- Negation of one keyframe's angle, as applied by `_flip` to the keyframes
it reaches before failing. -/
def negKF (k : Keyframe K) : Keyframe K :=
  { k with angle := k.angle.map fun a => 0 - a }

/-- Does a keyframe carry an angle value? -/
def angOk (k : Keyframe K) : Bool := k.angle.isSome

/-- All keyframes of a clip's tracks, in the iteration order of `_flip`. -/
def flatBA (bas : List (BoneAnimation K)) : List (Keyframe K) :=
  bas.flatMap fun ba => ba.keyframes

/-- All keyframes of all clips, in the iteration order of `_flip`. -/
def flatKFs (anims : List (String × List (BoneAnimation K))) : List (Keyframe K) :=
  anims.flatMap fun p => flatBA p.2

lemma takeWhile_append_of_not {α : Type} (p : α → Bool) :
    ∀ (xs ys : List α), xs.all p = false → (xs ++ ys).takeWhile p = xs.takeWhile p
  | [], ys, h => by simp at h
  | x :: xs, ys, h => by
      cases hx : p x with
      | false =>
          rw [List.cons_append, List.takeWhile_cons_of_neg (by simp [hx]),
            List.takeWhile_cons_of_neg (by simp [hx])]
      | true =>
          have hxs : xs.all p = false := by
            simpa [List.all_cons, hx] using h
          rw [List.cons_append, List.takeWhile_cons_of_pos hx,
            List.takeWhile_cons_of_pos hx, takeWhile_append_of_not p xs ys hxs]

lemma dropWhile_append_of_not {α : Type} (p : α → Bool) :
    ∀ (xs ys : List α), xs.all p = false → (xs ++ ys).dropWhile p = xs.dropWhile p ++ ys
  | [], ys, h => by simp at h
  | x :: xs, ys, h => by
      cases hx : p x with
      | false =>
          rw [List.cons_append, List.dropWhile_cons_of_neg (by simp [hx]),
            List.dropWhile_cons_of_neg (by simp [hx]), List.cons_append]
      | true =>
          have hxs : xs.all p = false := by
            simpa [List.all_cons, hx] using h
          rw [List.cons_append, List.dropWhile_cons_of_pos hx,
            List.dropWhile_cons_of_pos hx, dropWhile_append_of_not p xs ys hxs]

lemma negKFs_eq :
    ∀ (kfs : List (Keyframe K)),
      negKFs kfs = ((kfs.takeWhile angOk).map negKF ++ kfs.dropWhile angOk, kfs.all angOk)
  | [] => by simp [negKFs]
  | k :: rest => by
      cases hk : k.angle with
      | none =>
          have hak : ¬ angOk k = true := by simp [angOk, hk]
          simp only [negKFs, hk]
          rw [List.takeWhile_cons_of_neg hak, List.dropWhile_cons_of_neg hak]
          simp [List.all_cons, angOk, hk]
      | some a =>
          have hak : angOk k = true := by simp [angOk, hk]
          have ih := negKFs_eq rest
          simp only [negKFs, hk, ih]
          rw [List.takeWhile_cons_of_pos hak, List.dropWhile_cons_of_pos hak]
          refine Prod.ext ?_ ?_
          · simp only [List.map_cons, List.cons_append]
            congr 1
            simp [negKF, hk]
          · simp [List.all_cons, hak]

lemma flatBA_cons (ba : BoneAnimation K) (rest : List (BoneAnimation K)) :
    flatBA (ba :: rest) = ba.keyframes ++ flatBA rest := by
  simp [flatBA]

lemma flatKFs_cons (p : String × List (BoneAnimation K))
    (rest : List (String × List (BoneAnimation K))) :
    flatKFs (p :: rest) = flatBA p.2 ++ flatKFs rest := by
  simp [flatKFs, flatBA]

lemma negBAs_eq :
    ∀ (bas : List (BoneAnimation K)),
      flatBA (negBAs bas).1 =
        ((flatBA bas).takeWhile angOk).map negKF ++ (flatBA bas).dropWhile angOk ∧
      (negBAs bas).2 = (flatBA bas).all angOk
  | [] => by simp [negBAs, flatBA]
  | ba :: rest => by
      have hkf := negKFs_eq (K := K) ba.keyframes
      have ih := negBAs_eq rest
      cases hall : ba.keyframes.all angOk with
      | true =>
          have hmem : ∀ k ∈ ba.keyframes, angOk k = true := List.all_eq_true.mp hall
          have htk : ba.keyframes.takeWhile angOk = ba.keyframes :=
            List.takeWhile_eq_self_iff.mpr (by simpa using hmem)
          have hdk : ba.keyframes.dropWhile angOk = [] :=
            List.dropWhile_eq_nil_iff.mpr (by simpa using hmem)
          have h2 : (negKFs ba.keyframes).2 = true := by rw [hkf]; exact hall
          have h1 : (negKFs ba.keyframes).1 = ba.keyframes.map negKF := by
            rw [hkf, htk, hdk]
            simp
          constructor
          · simp only [negBAs, h2, if_true]
            rw [flatBA_cons, flatBA_cons]
            rw [List.takeWhile_append_of_pos hmem, List.dropWhile_append_of_pos hmem,
              List.map_append]
            simp only [List.append_assoc]
            rw [ih.1, h1]
          · simp only [negBAs, h2, if_true]
            rw [flatBA_cons, List.all_append, hall]
            simpa using ih.2
      | false =>
          have h2 : (negKFs ba.keyframes).2 = false := by rw [hkf]; exact hall
          constructor
          · simp only [negBAs, h2, Bool.false_eq_true, if_false]
            rw [flatBA_cons, flatBA_cons]
            rw [takeWhile_append_of_not angOk _ _ hall,
              dropWhile_append_of_not angOk _ _ hall]
            rw [hkf]
            simp [List.append_assoc]
          · simp only [negBAs, h2, Bool.false_eq_true, if_false]
            rw [flatBA_cons, List.all_append, hall]
            simp

lemma negAnims_eq :
    ∀ (anims : List (String × List (BoneAnimation K))),
      flatKFs (negAnims anims).1 =
        ((flatKFs anims).takeWhile angOk).map negKF ++ (flatKFs anims).dropWhile angOk ∧
      (negAnims anims).2 = (flatKFs anims).all angOk
  | [] => by simp [negAnims, flatKFs]
  | (n, bas) :: rest => by
      have hba := negBAs_eq (K := K) bas
      have ih := negAnims_eq rest
      cases hall : (flatBA bas).all angOk with
      | true =>
          have hmem : ∀ k ∈ flatBA bas, angOk k = true := List.all_eq_true.mp hall
          have htk : (flatBA bas).takeWhile angOk = flatBA bas :=
            List.takeWhile_eq_self_iff.mpr (by simpa using hmem)
          have hdk : (flatBA bas).dropWhile angOk = [] :=
            List.dropWhile_eq_nil_iff.mpr (by simpa using hmem)
          have h2 : (negBAs bas).2 = true := by rw [hba.2]; exact hall
          have h1 : flatBA (negBAs bas).1 = (flatBA bas).map negKF := by
            rw [hba.1, htk, hdk]
            simp
          constructor
          · simp only [negAnims, h2, if_true]
            rw [flatKFs_cons, flatKFs_cons]
            simp only
            rw [List.takeWhile_append_of_pos hmem, List.dropWhile_append_of_pos hmem,
              List.map_append]
            simp only [List.append_assoc]
            rw [ih.1, h1]
          · simp only [negAnims, h2, if_true]
            rw [flatKFs_cons, List.all_append]
            simp only
            rw [hall]
            simpa using ih.2
      | false =>
          have h2 : (negBAs bas).2 = false := by rw [hba.2]; exact hall
          constructor
          · simp only [negAnims, h2, Bool.false_eq_true, if_false]
            rw [flatKFs_cons, flatKFs_cons]
            simp only
            rw [takeWhile_append_of_not angOk _ _ hall,
              dropWhile_append_of_not angOk _ _ hall]
            rw [hba.1]
            simp [List.append_assoc]
          · simp only [negAnims, h2, Bool.false_eq_true, if_false]
            rw [flatKFs_cons, List.all_append]
            simp only
            rw [hall]
            simp

lemma angOk_negKF (k : Keyframe K) : angOk (negKF k) = angOk k := by
  cases hk : k.angle <;> simp [angOk, negKF, hk]

lemma all_angOk_map (kfs : List (Keyframe K)) :
    (kfs.map negKF).all angOk = kfs.all angOk := by
  induction kfs with
  | nil => rfl
  | cons k rest ih => simp [angOk_negKF, ih]

lemma mapNeg_mapNeg :
    ∀ (kfs : List (Keyframe K)), kfs.all angOk = true →
      (kfs.map negKF).map negKF = kfs
  | [], _ => rfl
  | k :: rest, h => by
      simp only [List.all_cons, Bool.and_eq_true] at h
      obtain ⟨a, ha⟩ := Option.isSome_iff_exists.mp (by simpa [angOk] using h.1)
      simp only [List.map_cons, mapNeg_mapNeg rest h.2]
      congr 1
      cases k with
      | mk ktime kang klen =>
          simp only at ha
          subst ha
          simp [negKF, sub_sub_cancel]

lemma negKFs_of_all (kfs : List (Keyframe K)) (h : kfs.all angOk = true) :
    negKFs kfs = (kfs.map negKF, true) := by
  have hmem : ∀ k ∈ kfs, angOk k = true := List.all_eq_true.mp h
  rw [negKFs_eq, List.takeWhile_eq_self_iff.mpr (by simpa using hmem),
    List.dropWhile_eq_nil_iff.mpr (by simpa using hmem), h]
  simp

lemma negBAs_of_all :
    ∀ (bas : List (BoneAnimation K)),
      (∀ ba ∈ bas, ba.keyframes.all angOk = true) →
      negBAs bas =
        (bas.map fun ba => { ba with keyframes := ba.keyframes.map negKF }, true)
  | [], _ => rfl
  | ba :: rest, h => by
      have h1 := negKFs_of_all (K := K) ba.keyframes (h ba (by simp))
      have ih := negBAs_of_all rest (fun x hx => h x (List.mem_cons_of_mem _ hx))
      simp only [negBAs, h1, if_true, ih, List.map_cons]

lemma negAnims_of_all :
    ∀ (anims : List (String × List (BoneAnimation K))),
      (∀ p ∈ anims, ∀ ba ∈ p.2, ba.keyframes.all angOk = true) →
      negAnims anims =
        (anims.map fun p =>
          (p.1, p.2.map fun ba => { ba with keyframes := ba.keyframes.map negKF }), true)
  | [], _ => rfl
  | (n, bas) :: rest, h => by
      have h1 := negBAs_of_all (K := K) bas (h (n, bas) (by simp))
      have ih := negAnims_of_all rest (fun x hx => h x (List.mem_cons_of_mem _ hx))
      simp only [negAnims, h1, if_true, ih, List.map_cons]

lemma negBA_map_invol :
    ∀ (bas : List (BoneAnimation K)),
      (∀ ba ∈ bas, ba.keyframes.all angOk = true) →
      ((bas.map fun ba => { ba with keyframes := ba.keyframes.map negKF }).map
        fun ba => { ba with keyframes := ba.keyframes.map negKF }) = bas
  | [], _ => rfl
  | ba :: rest, h => by
      have ih := negBA_map_invol rest (fun x hx => h x (List.mem_cons_of_mem _ hx))
      simp only [List.map_cons, ih]
      congr 1
      cases ba with
      | mk bname bkfs =>
          show BoneAnimation.mk bname ((bkfs.map negKF).map negKF) = BoneAnimation.mk bname bkfs
          rw [mapNeg_mapNeg bkfs (h ⟨bname, bkfs⟩ (by simp))]

lemma negAnims_map_invol :
    ∀ (anims : List (String × List (BoneAnimation K))),
      (∀ p ∈ anims, ∀ ba ∈ p.2, ba.keyframes.all angOk = true) →
      (((anims.map fun p =>
          (p.1, p.2.map fun ba => { ba with keyframes := ba.keyframes.map negKF })).map
        fun p =>
          (p.1, p.2.map fun ba => { ba with keyframes := ba.keyframes.map negKF }))) = anims
  | [], _ => rfl
  | (n, bas) :: rest, h => by
      have ih := negAnims_map_invol rest (fun x hx => h x (List.mem_cons_of_mem _ hx))
      simp only [List.map_cons, ih]
      congr 1
      show (n, ((bas.map fun ba => { ba with keyframes := ba.keyframes.map negKF }).map
        fun ba => { ba with keyframes := ba.keyframes.map negKF })) = (n, bas)
      rw [negBA_map_invol bas (h (n, bas) (by simp))]

/-- Claim C6: toggling the `flipped` property away from its current value and
back (with no playback update in between) restores the root anchor's angle,
every bone's local angle (and length), every keyframe of every clip, and the
flag itself, provided every keyframe carries an angle (otherwise the first
flip already raises, see C10).  The bones' saved-angle slots are refreshed by
each flip and are not part of the claim. -/
lemma setFlipped_of_ne (v : Bool) (s : AnimState K) (h : s.flipped ≠ v) :
    setFlipped v s = flipAttempt { s with flipped := v } := by
  rw [setFlipped, if_neg h]

theorem claim_C6_flip_roundtrip (s : AnimState K)
    (h : ∀ p ∈ s.animations, ∀ ba ∈ p.2, ba.keyframes.all angOk = true) :
    (setFlipped s.flipped (setFlipped (!s.flipped) s).1).1.core_angle = s.core_angle ∧
    (setFlipped s.flipped (setFlipped (!s.flipped) s).1).1.animations = s.animations ∧
    (setFlipped s.flipped (setFlipped (!s.flipped) s).1).1.bones.map
        (fun p => (p.1, p.2.local_length, p.2.local_angle)) =
      s.bones.map (fun p => (p.1, p.2.local_length, p.2.local_angle)) ∧
    (setFlipped s.flipped (setFlipped (!s.flipped) s).1).1.flipped = s.flipped := by
  have hg1 : s.flipped ≠ !s.flipped := by cases s.flipped <;> simp
  have hneg1 := negAnims_of_all (K := K) s.animations h
  have h2 : ∀ p ∈ (s.animations.map fun p =>
      (p.1, p.2.map fun ba => { ba with keyframes := ba.keyframes.map negKF })),
      ∀ ba ∈ p.2, ba.keyframes.all angOk = true := by
    intro p hp ba hba
    obtain ⟨q, hq, rfl⟩ := List.mem_map.mp hp
    obtain ⟨bb, hbb, rfl⟩ := List.mem_map.mp hba
    show ((bb.keyframes.map negKF)).all angOk = true
    rw [all_angOk_map]
    exact h q hq bb hbb
  have hneg2 := negAnims_of_all (K := K) _ h2
  have hne2 : (flipAttempt { s with flipped := !s.flipped }).1.flipped ≠ s.flipped := by
    have hfl : (flipAttempt { s with flipped := !s.flipped }).1.flipped = !s.flipped := rfl
    rw [hfl]
    cases s.flipped <;> simp
  rw [setFlipped_of_ne _ _ hg1, setFlipped_of_ne _ _ hne2]
  simp only [flipAttempt, hneg1]
  refine ⟨?_, ?_, ?_, ?_⟩
  · simp [sub_sub_cancel]
  · rw [hneg2]
    exact negAnims_map_invol s.animations h
  · show (flipBones (flipBones s.bones)).map
        (fun p => (p.1, p.2.local_length, p.2.local_angle)) =
      s.bones.map (fun p => (p.1, p.2.local_length, p.2.local_angle))
    simp [flipBones, List.map_map, sub_sub_cancel]
  · trivial

def c6State : AnimState ℚ :=
  { mkState [("b", ⟨10, 25, 3⟩)]
      [("A", [⟨"b", [⟨0, some 0, none⟩, ⟨1, some 90, none⟩]⟩])] with
    core_angle := 40 }

theorem claim_C6_flip_roundtrip_witness :
    (∀ p ∈ c6State.animations, ∀ ba ∈ p.2, ba.keyframes.all angOk = true) ∧
    (setFlipped c6State.flipped (setFlipped (!c6State.flipped) c6State).1).1.core_angle
      = c6State.core_angle ∧
    (setFlipped c6State.flipped (setFlipped (!c6State.flipped) c6State).1).1.animations
      = c6State.animations := by
  have h : ∀ p ∈ c6State.animations, ∀ ba ∈ p.2, ba.keyframes.all angOk = true := by
    decide
  exact ⟨h, (claim_C6_flip_roundtrip c6State h).1, (claim_C6_flip_roundtrip c6State h).2.1⟩

/-- Claim C10: if some keyframe of some clip has no angle value, assigning a
new value to `flipped` raises (`TypeError` on `0 - None`, the flag of the
result is `false`) and the mutation is not atomic: the core angle has already
been replaced by `180 -` itself, every bone's local and saved angle has been
negated, and in flip-iteration order the keyframes strictly before the first
angle-less one are negated while that keyframe and all later ones are
untouched. -/
theorem claim_C10_flip_not_atomic (s : AnimState K)
    (hbad : (flatKFs s.animations).all angOk = false) :
    (setFlipped (!s.flipped) s).2 = false ∧
    (setFlipped (!s.flipped) s).1.core_angle = 180 - s.core_angle ∧
    (setFlipped (!s.flipped) s).1.bones =
      s.bones.map (fun p =>
        (p.1, ⟨p.2.local_length, 0 - p.2.local_angle, 0 - p.2.local_angle⟩)) ∧
    flatKFs (setFlipped (!s.flipped) s).1.animations =
      ((flatKFs s.animations).takeWhile angOk).map negKF ++
        (flatKFs s.animations).dropWhile angOk := by
  have hg1 : ¬ (s.flipped = !s.flipped) := by cases s.flipped <;> simp
  rw [setFlipped, if_neg hg1]
  have he := negAnims_eq (K := K) s.animations
  refine ⟨?_, rfl, rfl, ?_⟩
  · simp only [flipAttempt]
    rw [he.2]
    exact hbad
  · simp only [flipAttempt]
    exact he.1

def c10State : AnimState ℚ :=
  mkState [("b", ⟨10, 25, 3⟩)]
    [("A", [⟨"b", [⟨0, some 30, none⟩, ⟨1, none, some 4⟩, ⟨2, some 60, none⟩]⟩])]

theorem claim_C10_flip_not_atomic_witness :
    (flatKFs c10State.animations).all angOk = false ∧
    (setFlipped (!c10State.flipped) c10State).2 = false ∧
    (setFlipped (!c10State.flipped) c10State).1.core_angle = 180 - c10State.core_angle ∧
    flatKFs (setFlipped (!c10State.flipped) c10State).1.animations =
      ((flatKFs c10State.animations).takeWhile angOk).map negKF ++
        (flatKFs c10State.animations).dropWhile angOk := by
  have hbad : (flatKFs c10State.animations).all angOk = false := by decide
  exact ⟨hbad, (claim_C10_flip_not_atomic c10State hbad).1,
    (claim_C10_flip_not_atomic c10State hbad).2.1,
    (claim_C10_flip_not_atomic c10State hbad).2.2.2⟩

lemma alookup_setBoneAngle_self :
    ∀ (bones : List (String × BoneRec K)) (n : String) (a : K),
      alookup (setBoneAngle bones n a) n =
        (alookup bones n).map fun b => { b with local_angle := a }
  | [], n, a => rfl
  | (pn, pb) :: rest, n, a => by
      simp only [setBoneAngle, List.map_cons]
      by_cases hp : pn = n
      · subst hp
        rw [if_pos rfl]
        simp only [alookup]
        simp
      · rw [if_neg hp]
        simp only [alookup]
        rw [if_neg hp, if_neg hp]
        exact alookup_setBoneAngle_self rest n a

lemma alookup_setBoneAngle_ne :
    ∀ (bones : List (String × BoneRec K)) (n m : String) (a : K), m ≠ n →
      alookup (setBoneAngle bones n a) m = alookup bones m
  | [], _, _, _, _ => rfl
  | (pn, pb) :: rest, n, m, a, h => by
      simp only [setBoneAngle, List.map_cons]
      by_cases hp : pn = n
      · subst hp
        have hpm : ¬ (pn = m) := fun hx => h hx.symm
        rw [if_pos rfl]
        simp only [alookup]
        rw [if_neg hpm, if_neg hpm]
        exact alookup_setBoneAngle_ne rest pn m a h
      · rw [if_neg hp]
        simp only [alookup]
        by_cases hm : pn = m
        · rw [if_pos hm, if_pos hm]
        · rw [if_neg hm, if_neg hm]
          exact alookup_setBoneAngle_ne rest n m a h

lemma isSome_alookup_setBoneAngle (bones : List (String × BoneRec K)) (n m : String) (a : K) :
    (alookup (setBoneAngle bones n a) m).isSome = (alookup bones m).isSome := by
  by_cases hm : m = n
  · subst hm
    rw [alookup_setBoneAngle_self]
    cases alookup bones m <;> simp
  · rw [alookup_setBoneAngle_ne bones n m a hm]

/-- Generic association-list overwrite of the value stored under a key
(Python `d[key] = v` for an existing key). -/
def aset {α : Type} (xs : List (String × α)) (key : String) (v : α) : List (String × α) :=
  xs.map fun p => if p.1 = key then (p.1, v) else p

/-- Replace the track list of one clip, keeping everything else. -/
def setTracks (s : AnimState K) (name : String) (tracks : List (BoneAnimation K)) :
    AnimState K :=
  { s with animations := aset s.animations name tracks }

lemma alookup_aset_self {α : Type} :
    ∀ (xs : List (String × α)) (key : String) (v : α),
      alookup (aset xs key v) key = (alookup xs key).map fun _ => v
  | [], _, _ => rfl
  | (pn, pv) :: rest, key, v => by
      simp only [aset, List.map_cons]
      by_cases hp : pn = key
      · subst hp
        rw [if_pos rfl]
        simp only [alookup]
        simp
      · rw [if_neg hp]
        simp only [alookup]
        rw [if_neg hp, if_neg hp]
        exact alookup_aset_self rest key v

lemma alookup_aset_ne {α : Type} :
    ∀ (xs : List (String × α)) (key m : String) (v : α), m ≠ key →
      alookup (aset xs key v) m = alookup xs m
  | [], _, _, _, _ => rfl
  | (pn, pv) :: rest, key, m, v, h => by
      simp only [aset, List.map_cons]
      by_cases hp : pn = key
      · subst hp
        have hpm : ¬ (pn = m) := fun hx => h hx.symm
        rw [if_pos rfl]
        simp only [alookup]
        rw [if_neg hpm, if_neg hpm]
        exact alookup_aset_ne rest pn m v h
      · rw [if_neg hp]
        simp only [alookup]
        by_cases hm : pn = m
        · rw [if_pos hm, if_pos hm]
        · rw [if_neg hm, if_neg hm]
          exact alookup_aset_ne rest key m v h

/-- Preconditions under which the transition bone loop of `update` completes
for one track: the bone exists, the bracket lookup succeeds, and both
bracketing keyframes carry angles. -/
def trackOk (bones : List (String × BoneRec K)) (tt1 : K) (ba : BoneAnimation K) : Bool :=
  (alookup bones ba.bone).isSome &&
    match get_keyframes ba.keyframes tt1 with
    | none => false
    | some (k0, k1) => k0.angle.isSome && k1.angle.isSome

lemma ubt_some (ease : K → K) (tt1 now ts td : K) :
    ∀ (anims : List (BoneAnimation K)) (bones : List (String × BoneRec K)),
      (∀ ba ∈ anims, trackOk bones tt1 ba = true) →
      (anims.map fun ba => ba.bone).Nodup →
      ∃ bones2, updateBonesTransition ease tt1 now ts td anims bones = some bones2 ∧
        (∀ ba ∈ anims, ∀ b, alookup bones ba.bone = some b →
          ∃ k0 k1 a0 a1, get_keyframes ba.keyframes tt1 = some (k0, k1) ∧
            k0.angle = some a0 ∧ k1.angle = some a1 ∧
            alookup bones2 ba.bone = some
              ⟨b.local_length,
                lerp_angle b.local_angle_saved
                  (lerp_angle a0 a1 (ease ((tt1 - k0.time) / (k1.time - k0.time))))
                  (ease ((now - ts) / (td * 1))),
                b.local_angle_saved⟩) ∧
        (∀ n, n ∉ (anims.map fun ba => ba.bone) → alookup bones2 n = alookup bones n)
  | [], bones, _, _ => ⟨bones, by simp [updateBonesTransition], by simp, fun n _ => rfl⟩
  | ba :: rest, bones, hok, hnd => by
      have hhd := hok ba (by simp)
      rw [trackOk, Bool.and_eq_true] at hhd
      rcases hgk : get_keyframes ba.keyframes tt1 with _ | ⟨k0, k1⟩
      · rw [hgk] at hhd
        exact absurd hhd.2 (by simp)
      · rw [hgk] at hhd
        have hangles := hhd.2
        rw [Bool.and_eq_true] at hangles
        obtain ⟨b0, hb0⟩ := Option.isSome_iff_exists.mp hhd.1
        obtain ⟨a0, ha0⟩ := Option.isSome_iff_exists.mp hangles.1
        obtain ⟨a1, ha1⟩ := Option.isSome_iff_exists.mp hangles.2
        have hnds : (∀ x ∈ rest, ¬ x.bone = ba.bone) ∧
            (List.map (fun ba => ba.bone) rest).Nodup := by
          simpa using hnd
        have hnotmem : ba.bone ∉ List.map (fun ba => ba.bone) rest := by
          intro hmem
          obtain ⟨x, hx, hxe⟩ := List.mem_map.mp hmem
          exact hnds.1 x hx hxe
        have hok1 : ∀ ba' ∈ rest,
            trackOk (setBoneAngle bones ba.bone
              (lerp_angle b0.local_angle_saved
                (lerp_angle a0 a1 (ease ((tt1 - k0.time) / (k1.time - k0.time))))
                (ease ((now - ts) / (td * 1))))) tt1 ba' = true := by
          intro ba' hba'
          have := hok ba' (List.mem_cons_of_mem _ hba')
          rw [trackOk, Bool.and_eq_true] at this ⊢
          exact ⟨by rw [isSome_alookup_setBoneAngle]; exact this.1, this.2⟩
        obtain ⟨bones2, hrun, hchar, hout⟩ :=
          ubt_some ease tt1 now ts td rest _ hok1 hnds.2
        refine ⟨bones2, ?_, ?_, ?_⟩
        · simp only [updateBonesTransition, hgk, hb0, ha0, ha1]
          exact hrun
        · intro ba' hba' b hb
          rcases List.mem_cons.mp hba' with rfl | hba'
          · have hbb : b = b0 := by
              rw [hb0] at hb
              injection hb with hb
              exact hb.symm
            subst hbb
            refine ⟨k0, k1, a0, a1, hgk, ha0, ha1, ?_⟩
            rw [hout ba'.bone hnotmem, alookup_setBoneAngle_self, hb0]
            rfl
          · have hne : ba'.bone ≠ ba.bone := fun hx => hnds.1 ba' hba' hx
            exact hchar ba' hba' b (by rwa [alookup_setBoneAngle_ne _ _ _ _ hne])
        · intro n hn
          simp only [List.map_cons, List.mem_cons, not_or] at hn
          rw [hout n hn.2, alookup_setBoneAngle_ne _ _ _ _ hn.1]

/-- Claim C2: while a transition is in progress (elapsed transition time
below `transition_duration`), for every bone with a track in the incoming
clip `update` writes the bone's local angle as exactly the two-level blend
`lerp_angle(saved, lerp_angle(a0, a1, ease(alpha1)), ease(t / transition_duration))`,
where `saved` is the angle snapshotted into the bone's saved slot when the
transition began, `a0, a1` are the bracketing angles of the *incoming* clip
at the folded sampling time, and `t = now - transition_start_time` is the
time since the transition started; moreover the previous clip's keyframes
are never sampled: replacing the previous clip's track list by anything
leaves every written bone value unchanged.  (`ease` is the module's easing
function — `EASE_IN_OUT_SINE` over `ℝ` in the source — passed as a
parameter.) -/
lemma update_transition_step (ease : K → K) (now : K) (s : AnimState K)
    (anims prevAnims : List (BoneAnimation K)) (bones2 : List (String × BoneRec K))
    (hst : s.is_started = true) (htr : s.transition = true)
    (htime : now - s.transition_start_time < s.transition_duration)
    (hcur : alookup s.animations s.current_animation = some anims)
    (hprev : alookup s.animations s.previous_animation = some prevAnims)
    (hrun : updateBonesTransition ease (transition1T s now) now s.transition_start_time
      s.transition_duration anims s.bones = some bones2) :
    update ease 1 now s = some { s with bones := bones2 } := by
  simp only [update, hst, htr, if_true, hcur]
  rw [if_neg (not_le.mpr htime)]
  simp only [hprev, hrun]

theorem claim_C2_transition_blend (ease : K → K) (now : K) (s : AnimState K)
    (anims prevAnims : List (BoneAnimation K))
    (hst : s.is_started = true) (htr : s.transition = true)
    (htime : now - s.transition_start_time < s.transition_duration)
    (hcur : alookup s.animations s.current_animation = some anims)
    (hprev : alookup s.animations s.previous_animation = some prevAnims)
    (hok : ∀ ba ∈ anims, trackOk s.bones (transition1T s now) ba = true)
    (hnd : (anims.map fun ba => ba.bone).Nodup) :
    ∃ s2, update ease 1 now s = some s2 ∧
      (∀ ba ∈ anims, ∀ b, alookup s.bones ba.bone = some b →
        ∃ k0 k1 a0 a1, get_keyframes ba.keyframes (transition1T s now) = some (k0, k1) ∧
          k0.angle = some a0 ∧ k1.angle = some a1 ∧
          alookup s2.bones ba.bone = some
            ⟨b.local_length,
              lerp_angle b.local_angle_saved
                (lerp_angle a0 a1
                  (ease ((transition1T s now - k0.time) / (k1.time - k0.time))))
                (ease ((now - s.transition_start_time) / (s.transition_duration * 1))),
              b.local_angle_saved⟩) ∧
      (∀ newPrev : List (BoneAnimation K), s.previous_animation ≠ s.current_animation →
        ∃ s3, update ease 1 now (setTracks s s.previous_animation newPrev) = some s3 ∧
          s3.bones = s2.bones) := by
  obtain ⟨bones2, hrun, hchar, hout⟩ :=
    ubt_some ease (transition1T s now) now s.transition_start_time s.transition_duration
      anims s.bones hok hnd
  have hupd := update_transition_step ease now s anims prevAnims bones2
    hst htr htime hcur hprev hrun
  refine ⟨{ s with bones := bones2 }, hupd, ?_, ?_⟩
  · intro ba hba b hb
    exact hchar ba hba b hb
  · intro newPrev hpc
    have hcur2 : alookup (aset s.animations s.previous_animation newPrev)
        s.current_animation = some anims := by
      rw [alookup_aset_ne _ _ _ _ (Ne.symm hpc)]
      exact hcur
    have hprev2 : alookup (aset s.animations s.previous_animation newPrev)
        s.previous_animation = some newPrev := by
      rw [alookup_aset_self, hprev]
      rfl
    have hupd2 := update_transition_step ease now
      (setTracks s s.previous_animation newPrev) anims newPrev bones2
      hst htr htime hcur2 hprev2 hrun
    exact ⟨{ setTracks s s.previous_animation newPrev with bones := bones2 }, hupd2, rfl⟩

def c2PrevTracks : List (BoneAnimation ℚ) := [⟨"b", [⟨0, some 7, none⟩, ⟨1, some 8, none⟩]⟩]

def c2Tracks : List (BoneAnimation ℚ) := [⟨"b", [⟨0, some 0, none⟩, ⟨1, some 90, none⟩]⟩]

def c2State : AnimState ℚ :=
  { mkState [("b", ⟨10, 5, 30⟩)] [("A", c2PrevTracks), ("B", c2Tracks)] with
    is_started := true
    current_animation := "B"
    previous_animation := "A"
    transition := true
    duration := 1 }

lemma c2_htt : transition1T c2State (1 / 10) = 1 / 5 := by
  show ((1:ℚ)/10 - ((1:ℚ)/10 - fmod (1/5) (1/1))) * 1 = 1/5
  unfold fmod trunc0
  rw [if_pos (by norm_num : (0:ℚ) ≤ 1/5/(1/1))]
  rw [show ⌊(1/5 : ℚ) / (1/1)⌋ = 0 by
    rw [Int.floor_eq_zero_iff, Set.mem_Ico]
    constructor <;> norm_num]
  norm_num

lemma c2_hok : ∀ ba ∈ c2Tracks,
    trackOk c2State.bones (transition1T c2State (1 / 10)) ba = true := by
  intro ba hba
  have hba' : ba = (⟨"b", [⟨0, some 0, none⟩, ⟨1, some 90, none⟩]⟩ : BoneAnimation ℚ) := by
    simpa [c2Tracks] using hba
  subst hba'
  rw [c2_htt]
  have hgk : get_keyframes ([⟨0, some 0, none⟩, ⟨1, some 90, none⟩] : List (Keyframe ℚ))
      (1 / 5) = some (⟨0, some 0, none⟩, ⟨1, some 90, none⟩) := by
    simp only [get_keyframes, bracketScan]
    rw [if_pos ⟨by norm_num, by norm_num⟩]
  rw [trackOk, hgk]
  rfl

theorem claim_C2_transition_blend_witness :
    ∃ s2, update (fun x => x) 1 (1 / 10) c2State = some s2 ∧
      (∀ ba ∈ c2Tracks, ∀ b, alookup c2State.bones ba.bone = some b →
        ∃ k0 k1 a0 a1,
          get_keyframes ba.keyframes (transition1T c2State (1 / 10)) = some (k0, k1) ∧
          k0.angle = some a0 ∧ k1.angle = some a1 ∧
          alookup s2.bones ba.bone = some
            ⟨b.local_length,
              lerp_angle b.local_angle_saved
                (lerp_angle a0 a1
                  ((transition1T c2State (1 / 10) - k0.time) / (k1.time - k0.time)))
                ((1 / 10 - c2State.transition_start_time) /
                  (c2State.transition_duration * 1)),
              b.local_angle_saved⟩) ∧
      (∀ newPrev : List (BoneAnimation ℚ),
        c2State.previous_animation ≠ c2State.current_animation →
        ∃ s3, update (fun x => x) 1 (1 / 10)
            (setTracks c2State c2State.previous_animation newPrev) = some s3 ∧
          s3.bones = s2.bones) :=
  claim_C2_transition_blend (fun x => x) (1 / 10) c2State c2Tracks c2PrevTracks
    rfl rfl (by show (1:ℚ)/10 - 0 < 1/5; norm_num) rfl rfl c2_hok (by decide)

lemma update_steady_step (ease : K → K) (now : K) (s : AnimState K)
    (anims : List (BoneAnimation K)) (bones2 : List (String × BoneRec K))
    (hst : s.is_started = true) (htr : s.transition = false)
    (hrev : s.reverse = false)
    (htime : ¬ s.duration ≤ (now - s.start_time) * s.time_scale)
    (hcur : alookup s.animations s.current_animation = some anims)
    (hrun : updateBonesSteady ease ((now - s.start_time) * s.time_scale) anims s.bones
      = some bones2) :
    update ease 1 now s = some { s with bones := bones2 } := by
  simp only [update, hst, htr, hrev, if_true, Bool.false_eq_true, if_false, hcur]
  rw [if_neg htime]
  simp only [hrun]

noncomputable def c5Track : List (Keyframe ℝ) := [⟨0, some 0, none⟩, ⟨1, some 90, none⟩]

noncomputable def c5Bones : List (String × BoneRec ℝ) := [("b", ⟨10, 0, 0⟩)]

noncomputable def c5Anims : List (BoneAnimation ℝ) := [⟨"b", c5Track⟩]

noncomputable def c5State : AnimState ℝ := mkState c5Bones [("A", c5Anims)]

/-- Claim C5: one bone anchored on the root with length 10 and local angle 0,
one clip `"A"` with track `[(t 0, angle 0), (t 1, angle 90)]`; after
`play("A", duration 1)` at time 0 and an `update` at elapsed time 0.5 s, the
bone's local angle equals `ease(0.5) * 90`, which is exactly 45 degrees since
`ease(0.5) = -(cos(pi/2) - 1)/2 = 1/2`. -/
theorem claim_C5_scenario :
    ((update EASE_IN_OUT_SINE 1 (1 / 2)
        (play 0 "A" 1 false false false false false c5State)).map
      fun s => (alookup s.bones "b").map fun b => b.local_angle)
      = some (some (EASE_IN_OUT_SINE (1 / 2) * 90)) ∧
    EASE_IN_OUT_SINE (1 / 2) * 90 = 45 := by
  have hease : EASE_IN_OUT_SINE (1 / 2 : ℝ) = 1 / 2 := by
    unfold EASE_IN_OUT_SINE
    rw [show (1 / 2 : ℝ) * Real.pi = Real.pi / 2 by ring, Real.cos_pi_div_two]
    norm_num
  have hbr : get_keyframes c5Track (((1 : ℝ) / 2 - 0) * 1)
      = some (⟨0, some 0, none⟩, ⟨1, some 90, none⟩) := by
    simp only [c5Track, get_keyframes, bracketScan]
    rw [if_pos ⟨by norm_num, by norm_num⟩]
  have hrun : updateBonesSteady EASE_IN_OUT_SINE (((1 : ℝ) / 2 - 0) * 1) c5Anims c5Bones
      = some (setBoneAngle c5Bones "b"
          (lerp_angle 0 90
            (EASE_IN_OUT_SINE (((((1 : ℝ) / 2 - 0) * 1) - 0) / (1 - 0))))) := by
    simp only [c5Anims, updateBonesSteady, hbr]
  have hupd := update_steady_step EASE_IN_OUT_SINE (1 / 2)
    (play 0 "A" 1 false false false false false c5State) c5Anims
    (setBoneAngle c5Bones "b"
      (lerp_angle 0 90 (EASE_IN_OUT_SINE (((((1 : ℝ) / 2 - 0) * 1) - 0) / (1 - 0)))))
    rfl rfl rfl (by show ¬ (1 : ℝ) ≤ (1 / 2 - 0) * 1; norm_num) rfl hrun
  have harg : ((((1 : ℝ) / 2 - 0) * 1) - 0) / (1 - 0) = 1 / 2 := by norm_num
  have hfl : ⌊((90 : ℝ) - 0 + 180) / 360⌋ = 0 := by
    rw [Int.floor_eq_zero_iff, Set.mem_Ico]
    constructor <;> norm_num
  have hlerp : lerp_angle (0 : ℝ) 90 (EASE_IN_OUT_SINE (1 / 2))
      = EASE_IN_OUT_SINE (1 / 2) * 90 := by
    unfold lerp_angle pymod
    rw [hfl]
    push_cast
    ring
  constructor
  · rw [hupd]
    show some (some (lerp_angle (0 : ℝ) 90
        (EASE_IN_OUT_SINE (((((1 : ℝ) / 2 - 0) * 1) - 0) / (1 - 0)))))
      = some (some (EASE_IN_OUT_SINE (1 / 2) * 90))
    rw [harg, hlerp]
  · rw [hease]
    norm_num

end Lucy
